import Mathlib

set_option linter.unusedVariables false
set_option linter.unnecessarySeqFocus false

/-! Shallow embedding of the kube-dump discovery-and-dump pipeline
(`src/layout.rs`, `src/discover.rs`, `src/generic.rs`, `src/main.rs`),
with theorems checking the natural-language specification against it. -/

/-- Rust `String` / `&str`, modelled as a list of characters. -/
abbrev Str := List Char

/-- Rust `PathBuf`, modelled as the list of components pushed onto it. -/
abbrev FsPath := List Str

/-- Rendering of a path: components joined by a slash separator,
the way the components of a `PathBuf` appear in its textual form. -/
def renderPath : FsPath → Str
  | [] => []
  | [c] => c
  | c :: c2 :: rest => c ++ '/' :: renderPath (c2 :: rest)

/-- `Path::parent`: `none` for the empty path, otherwise the path minus
its last component. -/
def pathParent : FsPath → Option FsPath
  | [] => none
  | p => some p.dropLast

/-- Single-character `str::replace`: every occurrence of the character `c`
is replaced by the string `repl` (Rust `name.replace("~", ...)` with a
one-character pattern substitutes per occurrence, left to right). -/
def replaceChar (c : Char) (repl : Str) (s : Str) : Str :=
  (s.map (fun x => if x = c then repl else [x])).flatten

/-- `layout.rs`: `Layout` tells where specific thing should live.
`root` comes from `opts.out`, `escape` from `opts.escape_paths`. -/
structure Layout where
  root : FsPath
  escape : Bool

/-- `kube::api::ApiResource` as used by `layout.rs` / `generic.rs` / `main.rs`. -/
structure KubeApiResource where
  group : Str
  version : Str
  api_version : Str
  kind : Str
  plural : Str
deriving DecidableEq, Repr

/-- `layout.rs`: information reported by `kubectl cluster-info`. -/
def Layout.cluster_info (l : Layout) : FsPath :=
  l.root ++ ["cluster-info.txt".toList]

/-- `layout.rs`: Kubernetes release. -/
def Layout.cluster_version (l : Layout) : FsPath :=
  l.root ++ ["cluster-version.json".toList]

/-- `layout.rs`: all discovered API resources. -/
def Layout.cluster_api_resources (l : Layout) : FsPath :=
  l.root ++ ["apis.json".toList]

/-- `layout.rs`: `Layout::maybe_escape_name` — identity when escaping is
disabled, otherwise `name.replace("~", "~tilda_").replace(":", "~colon_")`. -/
def Layout.maybe_escape_name (l : Layout) (name : Str) : Str :=
  if !l.escape then name
  else replaceChar ':' "~colon_".toList (replaceChar '~' "~tilda_".toList name)

/-- `layout.rs`: `ObjectLayout` tells where specific object-related
thing should live. -/
structure ObjectLayout where
  root : FsPath
deriving DecidableEq

/-- `layout.rs`: `Layout::object_layout`. The namespace component (or
`_global_`), then the kind component — prefixed by `<group>/` when the
resource group is non-empty — then the (maybe escaped) name. -/
def Layout.object_layout (l : Layout) (resource : KubeApiResource)
    (nspace : Option Str) (name : Str) : ObjectLayout :=
  let p := l.root ++ [match nspace with
    | some ns => ns
    | none => "_global_".toList]
  let full_kind := if !resource.group.isEmpty
    then resource.group ++ '/' :: resource.kind
    else resource.kind
  ObjectLayout.mk (p ++ [full_kind, l.maybe_escape_name name])

/-- `layout.rs`: `LogsKind`. -/
inductive LogsKind
  | current
  | previous

/-- `layout.rs`: `ObjectLayout::representation`. -/
def ObjectLayout.representation (o : ObjectLayout) : FsPath :=
  o.root ++ ["raw.json".toList]

/-- `layout.rs`: `ObjectLayout::logs` (for pods). -/
def ObjectLayout.logs (o : ObjectLayout) (kind : LogsKind)
    (container_name : Str) : FsPath :=
  let sfx : Str := match kind with
    | .current => []
    | .previous => "-prev".toList
  o.root ++ ["logs-".toList ++ container_name ++ sfx ++ ".txt".toList]

/-- `layout.rs`: `ObjectLayout::data_piece` (for configmaps and secrets). -/
def ObjectLayout.data_piece (o : ObjectLayout) (key : Str) : FsPath :=
  o.root ++ ["data-".toList ++ key]

/-- `layout.rs`: `ObjectLayout::event_log`. -/
def ObjectLayout.event_log (o : ObjectLayout) : FsPath :=
  o.root ++ ["events.txt".toList]

namespace discover

/-- `APIResource` entry of a discovery response — the fields read by
`discover.rs`. -/
structure APIResourceItem where
  name : Str
  kind : Str
  verbs : List Str
deriving DecidableEq, Repr

/-- `APIResourceList` of a discovery response. -/
structure APIResourceList where
  group_version : Str
  resources : List APIResourceItem
deriving DecidableEq, Repr

/-- `GroupVersionForDiscovery` — the preferred version advertised by a group. -/
structure GroupVersionForDiscovery where
  version : Str
deriving DecidableEq, Repr

/-- `APIGroup` of the top-level group list. -/
structure APIGroup where
  name : Str
  preferred_version : Option GroupVersionForDiscovery
deriving DecidableEq, Repr

/-- `APIGroupList`. -/
structure APIGroupList where
  groups : List APIGroup
deriving DecidableEq, Repr

/-- `APIVersions` — the legacy group's advertised versions. -/
structure APIVersions where
  versions : List Str
deriving DecidableEq, Repr

/-- The `ClientExt` calls used by `discover.rs` (declared in `src/ext.rs`):
each is a fallible request against the cluster, modelled by its outcome. -/
structure Client where
  list_api_groups : Except Str APIGroupList
  list_api_group_resources : Str → Str → Except Str APIResourceList
  list_legacy_api_versions : Except Str APIVersions
  list_legacy_api_resources : Str → Except Str APIResourceList

/-- `discover.rs`: `ApiResource`. -/
structure ApiResource where
  api_group : Str
  kind : Str
  plural : Str
deriving DecidableEq, Repr

/-- `discover.rs`: `ApiResource::from_kube_api_resource_list` — keeps the
entries that are not subresources (no `/` in the name) and are listable
(verbs contain "list"), copying `group_version`, `kind` and `name`
verbatim. -/
def ApiResource.from_kube_api_resource_list (list : APIResourceList) :
    List ApiResource :=
  (list.resources.filter
      (fun r => !(r.name.contains '/')
        && r.verbs.any (fun verb => verb == "list".toList))).map
    (fun r => ApiResource.mk list.group_version r.kind r.name)

/-- `discover.rs`: `ApiResource::from_kube::<K>()` — the statically-known
bootstrap path, taking `K::API_VERSION` and `K::KIND`; the plural is derived
as lowercase kind + "s". -/
def ApiResource.from_kube (api_version kind : Str) : ApiResource :=
  ApiResource.mk api_version kind (kind.map Char.toLower ++ "s".toList)

/-- `discover.rs`: `discover_api_group` — fails if the group advertises no
preferred version or its resource-list request fails. -/
def discover_api_group (client : Client) (group : APIGroup) :
    Except Str (List ApiResource) :=
  match group.preferred_version with
  | none => Except.error "preferredVersion missing".toList
  | some pv =>
    match client.list_api_group_resources group.name pv.version with
    | Except.error e => Except.error e
    | Except.ok resource_list =>
      Except.ok (ApiResource.from_kube_api_resource_list resource_list)

/-- `discover.rs`: `discover_grouped_apis` — a failing top-level group-list
request propagates; a per-group failure is reported on the diagnostic stream
(`eprintln!`) and the loop continues with the other groups. The result is
(diagnostics, outcome). -/
def discover_group_step (client : Client)
    (acc : List Str × List ApiResource) (group : APIGroup) :
    List Str × List ApiResource :=
  match discover_api_group client group with
  | Except.ok a => (acc.1, acc.2 ++ a)
  | Except.error err =>
    (acc.1 ++ ["Warning: failed to discover api group ".toList
        ++ group.name ++ ": ".toList ++ err],
      acc.2)

def discover_grouped_apis (client : Client) :
    List Str × Except Str (List ApiResource) :=
  match client.list_api_groups with
  | Except.error e => ([], Except.error e)
  | Except.ok groups =>
    let step := groups.groups.foldl (discover_group_step client) ([], [])
    (step.1, Except.ok step.2)

/-- `discover.rs`: `discover_legacy_apis` — fails when the legacy
version-list request fails, when "v1" is not among the advertised versions,
or when the legacy resource-list request fails. -/
def discover_legacy_apis (client : Client) : Except Str (List ApiResource) :=
  match client.list_legacy_api_versions with
  | Except.error e =>
    Except.error ("failed to list legacy api group versions: ".toList ++ e)
  | Except.ok vers =>
    if vers.versions.any (fun v => v == "v1".toList) then
      match client.list_legacy_api_resources "v1".toList with
      | Except.error e => Except.error e
      | Except.ok res_list =>
        Except.ok (ApiResource.from_kube_api_resource_list res_list)
    else Except.error "legacy v1 not supported by this cluster".toList

/-- `discover.rs`: `discover_apis` — runs grouped and legacy discovery,
appends the successful parts, and reports each failed part on the diagnostic
stream; the `for api_list in vec![grouped_apis, legacy_apis]` loop turns
both failures into diagnostics, so the function itself always returns `Ok`. -/
def discover_apis (client : Client) :
    List Str × Except Str (List ApiResource) :=
  let grouped := discover_grouped_apis client
  let legacy := discover_legacy_apis client
  let step := [grouped.2, legacy].foldl
    (fun (acc : List Str × List ApiResource) api_list =>
      match api_list with
      | Except.ok a => (acc.1, acc.2 ++ a)
      | Except.error err =>
        (acc.1 ++ ["Failed to discover apis: ".toList ++ err], acc.2))
    (grouped.1, [])
  (step.1, Except.ok step.2)

end discover

/-- `serde_json::Value`: a generic JSON-like tree. Numbers are modelled as
integers — no claim depends on numeric content. -/
inductive Json
  | null
  | bool (b : Bool)
  | num (n : Int)
  | str (s : Str)
  | arr (items : List Json)
  | obj (fields : List (Str × Json))

/-- `serde_json` JSON-pointer index parsing for arrays (`parse_index`):
a token addresses an array element when it is a plain decimal number
without a sign and without a superfluous leading zero. -/
def parseIndex (t : Str) : Option Nat :=
  if t.isEmpty then none
  else if t.head? = some '+' then none
  else if t.head? = some '0' && t.length != 1 then none
  else if t.all Char.isDigit then
    some (t.foldl (fun acc c => acc * 10 + (c.toNat - 48)) 0)
  else none

/-- First binding of key `k` in an object's field list (serde maps have
unique keys; the pointer walks the binding it finds). -/
def lookupFirst (fields : List (Str × Json)) (k : Str) : Option Json :=
  match fields with
  | [] => none
  | kv :: rest => if kv.1 = k then some kv.2 else lookupFirst rest k

/-- Update of the first binding of key `k`; the list is unchanged when the
key is absent. -/
def updateFirst (fields : List (Str × Json)) (k : Str) (f : Json → Json) :
    List (Str × Json) :=
  match fields with
  | [] => []
  | kv :: rest => if kv.1 = k then (kv.1, f kv.2) :: rest
    else kv :: updateFirst rest k f

/-- Update of the element at index `i`; the list is unchanged when the index
is out of range. -/
def modifyAt (items : List Json) (i : Nat) (f : Json → Json) : List Json :=
  match items, i with
  | [], _ => []
  | x :: rest, 0 => f x :: rest
  | x :: rest, i + 1 => x :: modifyAt rest i f

/-- `serde_json` `Value::pointer` along an already-split token list. -/
def Json.pointerGet : Json → List Str → Option Json
  | j, [] => some j
  | Json.obj fields, t :: rest =>
    match lookupFirst fields t with
    | some v => v.pointerGet rest
    | none => none
  | Json.arr items, t :: rest =>
    match parseIndex t with
    | some i =>
      match items[i]? with
      | some v => v.pointerGet rest
      | none => none
    | none => none
  | _, _ :: _ => none

/-- `object.pointer_mut(ptr)` followed by `*p = Value::Null` when the pointer
resolves; the tree is returned unchanged when it does not (the `if let Some`
in `apply_strips`). -/
def Json.pointerSetNull : Json → List Str → Json
  | _, [] => Json.null
  | Json.obj fields, t :: rest =>
    Json.obj (updateFirst fields t (fun v => v.pointerSetNull rest))
  | Json.arr items, t :: rest =>
    match parseIndex t with
    | some i => Json.arr (modifyAt items i (fun v => v.pointerSetNull rest))
    | none => Json.arr items
  | j, _ :: _ => j
termination_by j ptr => ptr.length

/-- `generic.rs`: `Strip`. -/
inductive Strip
  | managedFields
deriving DecidableEq, Repr

/-- `generic.rs`: `Strip::from_str` — only "managed-fields" is recognized;
anything else is a configuration error. -/
def Strip.from_str (s : Str) : Except Str Strip :=
  if s = "managed-fields".toList then Except.ok Strip.managedFields
  else Except.error ("unknown strip request: ".toList ++ s)

/-- The token list of the pointer "/metadata/managedFields". -/
def managedFieldsPtr : List Str := ["metadata".toList, "managedFields".toList]

/-- `generic.rs`: `apply_strips` — applies all requested strips in order;
`managed-fields` nulls out `metadata.managedFields` when the pointer
resolves and leaves the tree unchanged otherwise. -/
def apply_strips (object : Json) (strips : List Strip) : Json :=
  strips.foldl
    (fun o strip =>
      match strip with
      | Strip.managedFields => o.pointerSetNull managedFieldsPtr)
    object

/-- `kube::api::DynamicObject`: metadata (name, namespace) plus the untyped
data tree. The source unwraps `metadata.name`, so the model carries the name
directly. -/
structure DynObject where
  name : Str
  nspace : Option Str
  data : Json

/-- `main.rs`: `ApiCapabilities` — the part read by `generic::dump`
(`extras.operations.list`). -/
structure ApiCapabilities where
  list : Bool
deriving DecidableEq, Repr

/-- A completed `tokio::fs::write`: destination path and contents. -/
abbrev FileWrite := FsPath × Str

/-- `main.rs`/`generic.rs`: the environment threaded through the dumpers.
The external collaborators are modelled by their outcomes:
`apiserver_version_json` is `client.apiserver_version()` followed by
`serde_json::to_string_pretty` (two sequential fallible calls whose composite
outcome alone is observed), `apis_json` the pretty-printed catalog,
`serialize` the `to_string_pretty` of one object, and `create_dir_all` /
`write_file` the `tokio::fs` calls. -/
structure Environment where
  layout : Layout
  strip : List Strip
  apis : List (KubeApiResource × ApiCapabilities)
  apiserver_version_json : Except Str Str
  apis_json : Except Str Str
  list_objects : KubeApiResource → Except Str (List DynObject)
  serialize : DynObject → Except Str Str
  create_dir_all : FsPath → Except Str Unit
  write_file : FsPath → Str → Except Str Unit

/-- The per-object body of the loop in `generic.rs::dump_api_group`: strip,
serialize, take the parent of the representation path (the
`expect("Layout never returns root-path")` panic is modelled as an aborting
error), create the parent directory, write `raw.json`. An error at any step
aborts the remaining objects of this resource type. Returns the completed
writes and the outcome. -/
def dump_objects (env : Environment) (api_resource : KubeApiResource) :
    List DynObject → List FileWrite × Except Str Unit
  | [] => ([], Except.ok ())
  | object :: rest =>
    let object_layout :=
      env.layout.object_layout api_resource object.nspace object.name
    let repr_path := object_layout.representation
    let stripped : DynObject :=
      { object with data := apply_strips object.data env.strip }
    match env.serialize stripped with
    | Except.error e => ([], Except.error e)
    | Except.ok repr =>
      match pathParent repr_path with
      | none => ([], Except.error "panic: Layout never returns root-path".toList)
      | some parent =>
        match env.create_dir_all parent with
        | Except.error e => ([], Except.error e)
        | Except.ok _ =>
          match env.write_file repr_path repr with
          | Except.error e => ([], Except.error e)
          | Except.ok _ =>
            let next := dump_objects env api_resource rest
            ((repr_path, repr) :: next.1, next.2)

/-- `generic.rs`: `dump_api_group` — list the objects of one type, then dump
each; the list error or any per-object error propagates to the caller. -/
def dump_api_group (env : Environment) (api_resource : KubeApiResource) :
    List FileWrite × Except Str Unit :=
  match env.list_objects api_resource with
  | Except.error e => ([], Except.error e)
  | Except.ok object_list => dump_objects env api_resource object_list

/-- The per-type loop of `generic.rs::dump` — skips non-listable types; a
failing `dump_api_group` (list failure or per-object failure alike) is
reported on the diagnostic stream and the loop proceeds with the next type. -/
def dump_types (env : Environment) :
    List (KubeApiResource × ApiCapabilities) →
      List Str × List FileWrite × Except Str Unit
  | [] => ([], [], Except.ok ())
  | (api_resource, extras) :: rest =>
    if !extras.list then dump_types env rest
    else
      match dump_api_group env api_resource with
      | (ws, Except.ok _) =>
        let next := dump_types env rest
        (next.1, ws ++ next.2.1, next.2.2)
      | (ws, Except.error err) =>
        let next := dump_types env rest
        (("Failed to dump ".toList ++ api_resource.api_version ++ ".".toList
            ++ api_resource.kind ++ ": ".toList ++ err) :: next.1,
          ws ++ next.2.1, next.2.2)

/-- `generic.rs`: `dump` — write the cluster-level files (failures there are
fatal), then run the per-type loop. Returns (diagnostics, writes, outcome). -/
def dump (env : Environment) : List Str × List FileWrite × Except Str Unit :=
  match env.apiserver_version_json with
  | Except.error e => ([], [], Except.error e)
  | Except.ok version =>
    match env.write_file env.layout.cluster_version version with
    | Except.error e => ([], [], Except.error e)
    | Except.ok _ =>
      match env.apis_json with
      | Except.error e => ([], [], Except.error e)
      | Except.ok apis =>
        match env.write_file env.layout.cluster_api_resources apis with
        | Except.error e => ([], [], Except.error e)
        | Except.ok _ =>
          let step := dump_types env env.apis
          (step.1,
            (env.layout.cluster_version, version)
              :: (env.layout.cluster_api_resources, apis) :: step.2.1,
            step.2.2)

/-- The fields of an event's `involved_object` reference read by `main.rs`. -/
structure ObjectReference where
  api_version : Option Str
  kind : Option Str
  name : Option Str
  nspace : Option Str
deriving DecidableEq, Repr

/-- `k8s_openapi` `Event` — the fields read by `main.rs`. `name` is the
event's own metadata name (`event.name()`), `nspace` its own namespace. -/
structure Event where
  involved_object : ObjectReference
  message : Option Str
  nspace : Option Str
  name : Str
deriving DecidableEq, Repr

/-- `main.rs`: `InvolvedObject` — the grouping key. The field order
(group, kind, namespace, name) is the one the derived `Ord` compares. -/
structure InvolvedObject where
  group : Option Str
  kind : Str
  nspace : Option Str
  name : Str
deriving DecidableEq, Repr

/-- Split at the last occurrence of `sep`: Rust `s.rsplitn(2, sep).nth(1)`
yields the text before the last separator, or nothing when the separator
does not occur; this returns both sides of that split. -/
def rsplitLast (sep : Char) : Str → Option (Str × Str)
  | [] => none
  | c :: rest =>
    match rsplitLast sep rest with
    | some (b, a) => some (c :: b, a)
    | none => if c = sep then some ([], rest) else none

/-- `main.rs`: `InvolvedObject::from_event` — `None` when the reference lacks
a name or a kind; the group is the text before the last '/' of the
reference's apiVersion, where a missing apiVersion is defaulted to "v1". -/
def InvolvedObject.from_event (ev : Event) : Option InvolvedObject :=
  match ev.involved_object.name, ev.involved_object.kind with
  | some name, some kind =>
    some (InvolvedObject.mk
      ((rsplitLast '/' (ev.involved_object.api_version.getD "v1".toList)).map
        (fun ba => ba.1))
      kind ev.involved_object.nspace name)
  | _, _ => none

/-- `main.rs`: `event_to_string` — the event message, or empty. -/
def event_to_string (ev : Event) : Str := ev.message.getD []

/-- Lexicographic order on strings (Rust `Ord for String` compares UTF-8
bytes; byte order coincides with code-point order). -/
def cmpStr : Str → Str → Ordering
  | [], [] => Ordering.eq
  | [], _ :: _ => Ordering.lt
  | _ :: _, [] => Ordering.gt
  | a :: xs, b :: ys =>
    if a = b then cmpStr xs ys
    else if a < b then Ordering.lt else Ordering.gt

/-- Rust `Ord for Option`: `None` sorts before `Some`. -/
def cmpOptStr : Option Str → Option Str → Ordering
  | none, none => Ordering.eq
  | none, some _ => Ordering.lt
  | some _, none => Ordering.gt
  | some a, some b => cmpStr a b

/-- Lexicographic combination of two comparison outcomes: the second is
consulted only on equality of the first. -/
def lexStep (o rest : Ordering) : Ordering :=
  match o with
  | Ordering.eq => rest
  | x => x

/-- The derived `Ord for InvolvedObject`: lexicographic over the fields in
declaration order (group, kind, namespace, name). -/
def cmpInvolved (a b : InvolvedObject) : Ordering :=
  lexStep (cmpOptStr a.group b.group)
    (lexStep (cmpStr a.kind b.kind)
      (lexStep (cmpOptStr a.nspace b.nspace)
        (cmpStr a.name b.name)))

/-- `BTreeMap::entry(obj).or_insert_with(Vec::new).push(event)` over an
association list kept in ascending key order (the BTreeMap invariant): an
existing key appends to its vector, a new key enters at its sorted position. -/
def btreeInsert (k : InvolvedObject) (ev : Event) :
    List (InvolvedObject × List Event) → List (InvolvedObject × List Event)
  | [] => [(k, [ev])]
  | (k2, evs) :: rest =>
    match cmpInvolved k k2 with
    | Ordering.lt => (k, [ev]) :: (k2, evs) :: rest
    | Ordering.eq => (k2, evs ++ [ev]) :: rest
    | Ordering.gt => (k2, evs) :: btreeInsert k ev rest

/-- The grouping loop of `main.rs::dump_events`: an event without a
resolvable target is skipped with a diagnostic — note the source formats
that diagnostic with `event.namespace().unwrap()`, a panic when the event
itself has no namespace, modelled as an aborting error — and the rest are
pushed into the ordered map. Returns (diagnostics, map). -/
def group_events : List Event → List (InvolvedObject × List Event) →
    List Str → Except Str (List Str × List (InvolvedObject × List Event))
  | [], mapping, diags => Except.ok (diags, mapping)
  | ev :: rest, mapping, diags =>
    match InvolvedObject.from_event ev with
    | some obj => group_events rest (btreeInsert obj ev mapping) diags
    | none =>
      match ev.nspace with
      | none =>
        Except.error "panic: called Option::unwrap on a None value".toList
      | some ns =>
        group_events rest mapping
          (diags ++ ["Skipping dangling event ".toList ++ ns ++ "/".toList
            ++ ev.name])

/-- The `ApiResource` value `dump_events` builds for a group key: only
`kind` and `group` are meaningful, the other fields are placeholder "BUG"
strings in the source. -/
def event_resource (o : InvolvedObject) : KubeApiResource :=
  KubeApiResource.mk (o.group.getD []) "BUG".toList "BUG".toList o.kind
    "BUG".toList

/-- `Vec::join("\n")` over the group's messages. -/
def joinNewline (msgs : List Str) : Str := (msgs.intersperse ['\n']).flatten

/-- The environment of `dump_events`: the event list call, the on-disk
existence check (`repr_path.exists()`) and the file writer. -/
structure EventsEnv where
  layout : Layout
  list_events : Except Str (List Event)
  fs_exists : FsPath → Bool
  write_file : FsPath → Str → Except Str Unit

/-- The per-group loop of `main.rs::dump_events`: a group whose referenced
object has no `raw.json` on disk is skipped with a diagnostic; otherwise the
newline-joined messages are written to the referenced object's event-log
path (a write error is fatal). -/
def dump_event_groups (env : EventsEnv) :
    List (InvolvedObject × List Event) →
      List Str × List FileWrite × Except Str Unit
  | [] => ([], [], Except.ok ())
  | (object, events) :: rest =>
    let resource := event_resource object
    let layout := env.layout.object_layout resource object.nspace object.name
    let repr_path := layout.representation
    if !env.fs_exists repr_path then
      let next := dump_event_groups env rest
      ("Skipping event referencing not existing object".toList :: next.1,
        next.2.1, next.2.2)
    else
      let log := joinNewline (events.map event_to_string)
      let path := layout.event_log
      match env.write_file path log with
      | Except.error e => ([], [], Except.error e)
      | Except.ok _ =>
        let next := dump_event_groups env rest
        (next.1, (path, log) :: next.2.1, next.2.2)

/-- `main.rs`: `dump_events` — fetch all events (a failing list call is
fatal), group them, then run the per-group loop. -/
def dump_events (env : EventsEnv) :
    List Str × List FileWrite × Except Str Unit :=
  match env.list_events with
  | Except.error e => ([], [], Except.error e)
  | Except.ok events =>
    match group_events events [] [] with
    | Except.error e => ([], [], Except.error e)
    | Except.ok (diags, mapping) =>
      let step := dump_event_groups env mapping
      (diags ++ step.1, step.2.1, step.2.2)

/-! Helper definitions used by the verification. -/

/-- Per-character encoding equal to the two sequential replaces of
`maybe_escape_name` when escaping is enabled. -/
def encChar (c : Char) : Str :=
  if c = '~' then "~tilda_".toList
  else if c = ':' then "~colon_".toList
  else [c]

/-- Decoder of the escaped name form; inverse of the escaping on its image. -/
def unescape : Str → Option Str
  | [] => some []
  | c :: rest =>
    if c = '~' then
      if rest.take 6 = "tilda_".toList then
        (unescape (rest.drop 6)).map (fun d => '~' :: d)
      else if rest.take 6 = "colon_".toList then
        (unescape (rest.drop 6)).map (fun d => ':' :: d)
      else none
    else (unescape rest).map (fun d => c :: d)
termination_by s => s.length
decreasing_by
  all_goals simp [List.length_drop]
  all_goals omega

/-- First binding of a key in the grouped-events association list. -/
def lookupKey : List (InvolvedObject × List Event) → InvolvedObject →
    Option (List Event)
  | [], _ => none
  | (k2, evs) :: rest, k => if k2 = k then some evs else lookupKey rest k

/-- The grouped-events map produced by a run of the grouping loop over
`events` (empty when the grouping loop panics). -/
def event_mapping (events : List Event) :
    List (InvolvedObject × List Event) :=
  match group_events events [] [] with
  | Except.ok (_, m) => m
  | Except.error _ => []

/-- The diagnostics the grouping loop emits for dangling events, in order. -/
def danglingDiags (events : List Event) : List Str :=
  events.filterMap (fun ev =>
    match InvolvedObject.from_event ev with
    | some _ => none
    | none => ev.nspace.map (fun ns =>
        "Skipping dangling event ".toList ++ ns ++ "/".toList ++ ev.name))

/-- The `raw.json` path `dump_events` checks on disk for a group key. -/
def eventReprPath (env : EventsEnv) (k : InvolvedObject) : FsPath :=
  (env.layout.object_layout (event_resource k) k.nspace k.name).representation

/-- The `events.txt` path `dump_events` writes for a group key. -/
def eventLogPath (env : EventsEnv) (k : InvolvedObject) : FsPath :=
  (env.layout.object_layout (event_resource k) k.nspace k.name).event_log

/-- Keys strictly ascending in the derived order: the `BTreeMap` invariant. -/
def SortedKeys (m : List (InvolvedObject × List Event)) : Prop :=
  List.Pairwise (fun x y => cmpInvolved x.1 y.1 = Ordering.lt) m

/-! Concrete sample values used by witnesses and counterexamples. -/

/-- A client whose top-level group-list request fails while the legacy group
is healthy and exposes one listable resource. -/
def cxClient : discover.Client :=
  discover.Client.mk
    (Except.error "boom".toList)
    (fun _ _ => Except.error "unused".toList)
    (Except.ok (discover.APIVersions.mk ["v1".toList]))
    (fun _ => Except.ok (discover.APIResourceList.mk "v1".toList
      [discover.APIResourceItem.mk "pods".toList "Pod".toList
        ["list".toList, "get".toList]]))

/-- A client with one broken group (no preferred version) and one healthy
group. -/
def wClient : discover.Client :=
  discover.Client.mk
    (Except.ok (discover.APIGroupList.mk
      [discover.APIGroup.mk "bad".toList none,
        discover.APIGroup.mk "apps".toList
          (some (discover.GroupVersionForDiscovery.mk "v1".toList))]))
    (fun g _ => if g = "apps".toList then
        Except.ok (discover.APIResourceList.mk "apps/v1".toList
          [discover.APIResourceItem.mk "deployments".toList
            "Deployment".toList ["list".toList]])
      else Except.error "nope".toList)
    (Except.ok (discover.APIVersions.mk ["v1".toList]))
    (fun _ => Except.ok (discover.APIResourceList.mk "v1".toList []))

/-- A core-group resource type named A. -/
def rA : KubeApiResource :=
  KubeApiResource.mk [] "vA".toList "vA".toList "A".toList "as".toList

/-- A core-group resource type named B. -/
def rB : KubeApiResource :=
  KubeApiResource.mk [] "vB".toList "vB".toList "B".toList "bs".toList

/-- The representation path of type A's single object in `cxEnv`. -/
def cxPathA : FsPath :=
  ["out".toList, "_global_".toList, "A".toList, "a".toList, "raw.json".toList]

/-- The representation path of type B's single object in `cxEnv`. -/
def cxPathB : FsPath :=
  ["out".toList, "_global_".toList, "B".toList, "b".toList, "raw.json".toList]

/-- An environment where writing type A's only object fails with an I/O
error while everything about type B succeeds. -/
def cxEnv : Environment :=
  Environment.mk (Layout.mk ["out".toList] false) []
    [(rA, ApiCapabilities.mk true), (rB, ApiCapabilities.mk true)]
    (Except.ok "v".toList) (Except.ok "j".toList)
    (fun r => if r = rA then Except.ok [DynObject.mk "a".toList none Json.null]
      else Except.ok [DynObject.mk "b".toList none Json.null])
    (fun _ => Except.ok "x".toList)
    (fun _ => Except.ok ())
    (fun p _ => if p = cxPathA then Except.error "io error".toList
      else Except.ok ())

/-- An event with a resolvable target reference (core-group Pod "web"). -/
def evGood : Event :=
  Event.mk
    (ObjectReference.mk none (some "Pod".toList) (some "web".toList)
      (some "default".toList))
    (some "m1".toList) (some "default".toList) "e1".toList

/-- An event whose target reference lacks a name. -/
def evBad : Event :=
  Event.mk
    (ObjectReference.mk none (some "Pod".toList) none (some "default".toList))
    (some "m2".toList) (some "default".toList) "e2".toList

/-- The representation path of the object `evGood` references under root
`r`. -/
def c3Repr : FsPath :=
  ["r".toList, "default".toList, "Pod".toList, "web".toList,
    "raw.json".toList]

/-- An events environment where exactly the object referenced by `evGood`
exists on disk. -/
def c3Env : EventsEnv :=
  EventsEnv.mk (Layout.mk ["r".toList] false)
    (Except.ok [evGood, evBad])
    (fun p => p == c3Repr)
    (fun _ _ => Except.ok ())

/-- A layout with escaping enabled at an empty root. -/
def escLayout : Layout := Layout.mk [] true

/-- An object carrying a non-null `metadata.managedFields`. -/
def mfObj : Json :=
  Json.obj [("metadata".toList,
    Json.obj [("managedFields".toList, Json.arr [])])]

/-- An event whose reference has an apiVersion with a slash. -/
def c9Ev : Event :=
  Event.mk
    (ObjectReference.mk (some "apps/v1".toList) (some "Deployment".toList)
      (some "web".toList) (some "ns".toList))
    none (some "ns".toList) "e".toList

/-- An event whose reference has no apiVersion at all. -/
def c9EvCore : Event :=
  Event.mk
    (ObjectReference.mk none (some "Pod".toList) (some "web".toList)
      (some "ns".toList))
    none (some "ns".toList) "e".toList

/-! Path rendering lemmas. -/

theorem renderPath_cons (x : Str) (xs : FsPath) (h : xs ≠ []) :
    renderPath (x :: xs) = x ++ '/' :: renderPath xs := by
  cases xs with
  | nil => exact absurd rfl h
  | cons y ys => rfl

theorem renderPath_slash_component (p : FsPath) (g k : Str) (q : FsPath) :
    renderPath (p ++ (g ++ '/' :: k) :: q) = renderPath (p ++ g :: k :: q) := by
  induction p with
  | nil =>
    cases q with
    | nil => simp [renderPath]
    | cons q0 qs =>
      simp only [List.nil_append]
      rw [renderPath_cons _ _ (by simp),
        renderPath_cons g (k :: q0 :: qs) (by simp),
        renderPath_cons k (q0 :: qs) (by simp)]
      simp
  | cons x p ih =>
    simp only [List.cons_append]
    rw [renderPath_cons _ _ (by simp), renderPath_cons _ _ (by simp), ih]

theorem pathParent_append_single (p : FsPath) (x : Str) :
    pathParent (p ++ [x]) = some p := by
  cases hp : p ++ [x] with
  | nil => simp at hp
  | cons y ys =>
    have h1 : pathParent (y :: ys) = some ((y :: ys).dropLast) := rfl
    rw [h1, ← hp]
    simp

/-- C4: for every resource descriptor, namespace option and name, the
per-object root renders as `<root>/<namespace or _global_>/<group>/<kind>/
<escaped name>`, where the group segment is omitted entirely for the
legacy/core (empty) group and escaping is applied to the leaf name segment
only — namespace, group and kind appear verbatim. -/
theorem object_path_structure (l : Layout) (r : KubeApiResource)
    (ns : Option Str) (n : Str) :
    renderPath (l.object_layout r ns n).root =
      renderPath (l.root
        ++ [match ns with | some s => s | none => "_global_".toList]
        ++ (if r.group = [] then [r.kind] else [r.group, r.kind])
        ++ [l.maybe_escape_name n]) := by
  by_cases hg : r.group = []
  · simp [Layout.object_layout, hg]
  · have hne : r.group.isEmpty = false := by
      cases hgr : r.group with
      | nil => exact absurd hgr hg
      | cons a b => rfl
    simp only [Layout.object_layout, hne, Bool.not_false, if_pos, if_neg hg]
    have := renderPath_slash_component
      (l.root ++ [match ns with | some s => s | none => "_global_".toList])
      r.group r.kind [l.maybe_escape_name n]
    simpa using this

/-- C10: the representation path of any object layout always has a parent —
namely the object root — so the `expect("Layout never returns root-path")`
taken on it in `dump_api_group` can never panic; the path carries the
namespace-or-`_global_`, kind and name components beneath the dump root plus
the `raw.json` leaf. -/
theorem representation_has_parent (l : Layout) (r : KubeApiResource)
    (ns : Option Str) (n : Str) :
    pathParent (l.object_layout r ns n).representation =
        some (l.object_layout r ns n).root ∧
      (l.object_layout r ns n).representation.length = l.root.length + 4 := by
  constructor
  · exact pathParent_append_single _ _
  · simp [Layout.object_layout, ObjectLayout.representation]

/-! Escaping lemmas. -/

theorem replaceChar_append (c : Char) (r a b : Str) :
    replaceChar c r (a ++ b) = replaceChar c r a ++ replaceChar c r b := by
  simp [replaceChar]

theorem esc_eq_encChar (n : Str) :
    replaceChar ':' "~colon_".toList (replaceChar '~' "~tilda_".toList n) =
      (n.map encChar).flatten := by
  induction n with
  | nil => rfl
  | cons c cs ih =>
    have step : replaceChar '~' "~tilda_".toList (c :: cs) =
        (if c = '~' then "~tilda_".toList else [c])
          ++ replaceChar '~' "~tilda_".toList cs := by
      simp [replaceChar]
    rw [step, replaceChar_append, ih]
    simp only [List.map_cons, List.flatten_cons]
    by_cases h1 : c = '~'
    · subst h1
      simp only [if_pos rfl, encChar, if_pos rfl]
      rfl
    · by_cases h2 : c = ':'
      · subst h2
        simp only [if_neg h1, encChar, if_neg h1, if_pos rfl]
        rfl
      · simp only [if_neg h1, encChar, if_neg h1, if_neg h2]
        simp [replaceChar, h2]

theorem unescape_enc (n : Str) :
    unescape ((n.map encChar).flatten) = some n := by
  induction n with
  | nil => simp [unescape]
  | cons c cs ih =>
    simp only [List.map_cons, List.flatten_cons]
    by_cases h1 : c = '~'
    · subst h1
      have henc : encChar '~' = '~' :: "tilda_".toList := rfl
      rw [henc]
      have htake : ("tilda_".toList ++ (cs.map encChar).flatten).take 6 =
          "tilda_".toList := by
        have h6 : (6 : Nat) = ("tilda_".toList).length := rfl
        rw [h6, List.take_left]
      have hdrop : ("tilda_".toList ++ (cs.map encChar).flatten).drop 6 =
          (cs.map encChar).flatten := by
        have h6 : (6 : Nat) = ("tilda_".toList).length := rfl
        rw [h6, List.drop_left]
      rw [List.cons_append, unescape]
      simp [htake, hdrop, ih]
    · by_cases h2 : c = ':'
      · subst h2
        have henc : encChar ':' = '~' :: "colon_".toList := rfl
        rw [henc]
        have htake : ("colon_".toList ++ (cs.map encChar).flatten).take 6 =
            "colon_".toList := by
          have h6 : (6 : Nat) = ("colon_".toList).length := rfl
          rw [h6, List.take_left]
        have hdrop : ("colon_".toList ++ (cs.map encChar).flatten).drop 6 =
            (cs.map encChar).flatten := by
          have h6 : (6 : Nat) = ("colon_".toList).length := rfl
          rw [h6, List.drop_left]
        have hne : ("colon_".toList : Str) ≠ "tilda_".toList := by decide
        rw [List.cons_append, unescape]
        simp [htake, hdrop, hne, ih]
      · have henc : encChar c = [c] := by simp [encChar, h1, h2]
        rw [henc]
        rw [List.cons_append, List.nil_append, unescape]
        simp [h1, ih]

theorem escape_injective {l : Layout} (hesc : l.escape = true) {n1 n2 : Str}
    (h : l.maybe_escape_name n1 = l.maybe_escape_name n2) : n1 = n2 := by
  unfold Layout.maybe_escape_name at h
  rw [hesc] at h
  simp only [Bool.not_true, Bool.false_eq_true, if_false] at h
  rw [esc_eq_encChar, esc_eq_encChar] at h
  have := congrArg unescape h
  rw [unescape_enc, unescape_enc] at this
  exact Option.some.injEq _ _ ▸ this

/-- C5: the Layout Engine is deterministic — computing an object path twice
yields identical paths — and, with escaping enabled, the name-escaping
function is injective: distinct names have distinct escaped leaf segments. -/
theorem layout_deterministic_escape_injective :
    (∀ (l : Layout) (r : KubeApiResource) (ns : Option Str) (n : Str),
        l.object_layout r ns n = l.object_layout r ns n) ∧
    (∀ (l : Layout) (n1 n2 : Str), l.escape = true → n1 ≠ n2 →
        l.maybe_escape_name n1 ≠ l.maybe_escape_name n2) :=
  ⟨fun _ _ _ _ => rfl,
    fun l n1 n2 hesc hne h => hne (escape_injective hesc h)⟩

/-- Witness for C5 at escaping enabled and the distinct names "a", "b". -/
theorem layout_deterministic_escape_injective_witness :
    escLayout.escape = true ∧ (['a'] : Str) ≠ ['b'] ∧
      escLayout.maybe_escape_name ['a'] ≠ escLayout.maybe_escape_name ['b'] :=
  ⟨rfl, by decide,
    layout_deterministic_escape_injective.2 escLayout ['a'] ['b'] rfl
      (by decide)⟩

/-! Structure of the escaped form. -/

theorem enc_no_colon (n : Str) : ':' ∉ (n.map encChar).flatten := by
  induction n with
  | nil => simp
  | cons c cs ih =>
    simp only [List.map_cons, List.flatten_cons, List.mem_append]
    rintro (h | h)
    · by_cases h1 : c = '~'
      · subst h1; exact absurd h (by decide)
      · by_cases h2 : c = ':'
        · subst h2; exact absurd h (by decide)
        · simp [encChar, h1, h2] at h
          exact h2 h.symm
    · exact ih h

theorem append_eq_mem_split {x : Char} : ∀ (t d a b : List Char), x ∉ t →
    a ++ x :: b = t ++ d → ∃ e, d = e ++ x :: b
  | [], d, a, b => fun _ h => ⟨a, by simpa using h.symm⟩
  | y :: t2, d, a, b => fun hx h => by
    cases a with
    | nil =>
      simp only [List.nil_append, List.cons_append, List.cons.injEq] at h
      exact absurd (h.1 ▸ List.mem_cons_self y t2) hx
    | cons a0 a2 =>
      simp only [List.cons_append, List.cons.injEq] at h
      exact append_eq_mem_split t2 d a2 b
        (fun hm => hx (List.mem_cons_of_mem _ hm)) h.2

theorem enc_tilde_structure : ∀ (n : Str) (pre suf : Str),
    (n.map encChar).flatten = pre ++ '~' :: suf →
    (∃ t, suf = "tilda_".toList ++ t) ∨ (∃ t, suf = "colon_".toList ++ t)
  | [], pre, suf => by
    intro h
    exact absurd h.symm (by simp)
  | c :: cs, pre, suf => by
    intro h
    simp only [List.map_cons, List.flatten_cons] at h
    by_cases h1 : c = '~'
    · subst h1
      rw [show encChar '~' = '~' :: "tilda_".toList from rfl,
        List.cons_append] at h
      cases pre with
      | nil =>
        simp only [List.nil_append, List.cons.injEq] at h
        exact Or.inl ⟨(cs.map encChar).flatten, h.2.symm⟩
      | cons p0 p2 =>
        simp only [List.cons_append, List.cons.injEq] at h
        obtain ⟨e, he⟩ := append_eq_mem_split "tilda_".toList
          (cs.map encChar).flatten p2 suf (by decide) h.2.symm
        exact enc_tilde_structure cs e suf he
    · by_cases h2 : c = ':'
      · subst h2
        rw [show encChar ':' = '~' :: "colon_".toList from rfl,
          List.cons_append] at h
        cases pre with
        | nil =>
          simp only [List.nil_append, List.cons.injEq] at h
          exact Or.inr ⟨(cs.map encChar).flatten, h.2.symm⟩
        | cons p0 p2 =>
          simp only [List.cons_append, List.cons.injEq] at h
          obtain ⟨e, he⟩ := append_eq_mem_split "colon_".toList
            (cs.map encChar).flatten p2 suf (by decide) h.2.symm
          exact enc_tilde_structure cs e suf he
      · rw [show encChar c = [c] from by simp [encChar, h1, h2],
          List.cons_append, List.nil_append] at h
        cases pre with
        | nil =>
          simp only [List.nil_append, List.cons.injEq] at h
          exact absurd h.1 h1
        | cons p0 p2 =>
          simp only [List.cons_append, List.cons.injEq] at h
          exact enc_tilde_structure cs p2 suf h.2

theorem enc_identity_of_clean (n : Str) (h1 : '~' ∉ n) (h2 : ':' ∉ n) :
    (n.map encChar).flatten = n := by
  induction n with
  | nil => rfl
  | cons c cs ih =>
    simp only [List.mem_cons, not_or] at h1 h2
    simp only [List.map_cons, List.flatten_cons,
      show encChar c = [c] from by simp [encChar, Ne.symm h1.1, Ne.symm h2.1],
      List.cons_append, List.nil_append]
    rw [ih h1.2 h2.2]

/-- C6: with escaping enabled the result contains no raw ':' at all, every
'~' of the result opens one of the two literal escape sequences (so no raw
'~' of the original form survives), and a name containing neither '~' nor
':' is returned unchanged. -/
theorem escape_rewrites_reserved (l : Layout) (n : Str)
    (hesc : l.escape = true) :
    (':' ∉ l.maybe_escape_name n) ∧
    (∀ pre suf, l.maybe_escape_name n = pre ++ '~' :: suf →
      (∃ t, suf = "tilda_".toList ++ t) ∨ (∃ t, suf = "colon_".toList ++ t)) ∧
    (('~' ∉ n ∧ ':' ∉ n) → l.maybe_escape_name n = n) := by
  have hdef : l.maybe_escape_name n = (n.map encChar).flatten := by
    unfold Layout.maybe_escape_name
    rw [hesc]
    simp only [Bool.not_true, Bool.false_eq_true, if_false]
    exact esc_eq_encChar n
  refine ⟨?_, ?_, ?_⟩
  · rw [hdef]; exact enc_no_colon n
  · intro pre suf h
    exact enc_tilde_structure n pre suf (hdef ▸ h)
  · rintro ⟨ht, hc⟩
    rw [hdef]
    exact enc_identity_of_clean n ht hc

/-- Witness for C6 at the name "a:b~c" with escaping enabled. -/
theorem escape_rewrites_reserved_witness :
    escLayout.escape = true ∧
      ':' ∉ escLayout.maybe_escape_name "a:b~c".toList :=
  ⟨rfl, (escape_rewrites_reserved escLayout "a:b~c".toList rfl).1⟩

/-! JSON pointer lemmas. -/

theorem lookupFirst_updateFirst (fields : List (Str × Json)) (k : Str)
    (f : Json → Json) :
    lookupFirst (updateFirst fields k f) k = (lookupFirst fields k).map f := by
  induction fields with
  | nil => rfl
  | cons kv rest ih =>
    by_cases h : kv.1 = k
    · simp [lookupFirst, updateFirst, h]
    · simp [lookupFirst, updateFirst, h, ih]

theorem modifyAt_getElem (items : List Json) (i : Nat) (f : Json → Json) :
    (modifyAt items i f)[i]? = (items[i]?).map f := by
  induction items generalizing i with
  | nil => simp [modifyAt]
  | cons x rest ih =>
    cases i with
    | zero => simp [modifyAt]
    | succ i2 => simp [modifyAt, ih]

theorem pointerGet_pointerSetNull :
    ∀ (p : List Str) (j v : Json), j.pointerGet p = some v →
      (j.pointerSetNull p).pointerGet p = some Json.null := by
  intro p
  induction p with
  | nil =>
    intro j v h
    simp [Json.pointerSetNull, Json.pointerGet]
  | cons t rest ih =>
    intro j v h
    cases j with
    | obj fields =>
      simp only [Json.pointerGet] at h
      cases hl : lookupFirst fields t with
      | none => rw [hl] at h; exact absurd h (by simp)
      | some w =>
        rw [hl] at h
        simp only [Json.pointerSetNull, Json.pointerGet]
        rw [lookupFirst_updateFirst, hl]
        simpa using ih w v h
    | arr items =>
      cases hi : parseIndex t with
      | none => simp [Json.pointerGet, hi] at h
      | some i =>
        cases hw : items[i]? with
        | none => simp [Json.pointerGet, hi, hw] at h
        | some w =>
          simp only [Json.pointerGet, hi, hw] at h
          simp only [Json.pointerSetNull, hi, Json.pointerGet]
          rw [modifyAt_getElem, hw]
          simpa using ih w v h
    | null => exact absurd h (by simp [Json.pointerGet])
    | bool b => exact absurd h (by simp [Json.pointerGet])
    | num x => exact absurd h (by simp [Json.pointerGet])
    | str s => exact absurd h (by simp [Json.pointerGet])

/-- C7: the strip pipeline with strip set `[managed-fields]` turns the value
at `metadata.managedFields` into `null` while the key remains resolvable
(the pointer still yields a value, so the key is preserved, not removed);
with an empty strip set the object is unchanged. -/
theorem strip_pipeline_managed_fields :
    (∀ object : Json, apply_strips object [] = object) ∧
    (∀ object v : Json, object.pointerGet managedFieldsPtr = some v →
      v ≠ Json.null →
      (apply_strips object [Strip.managedFields]).pointerGet managedFieldsPtr
        = some Json.null) := by
  constructor
  · intro object; rfl
  · intro object v h hv
    exact pointerGet_pointerSetNull managedFieldsPtr object v h

/-- Witness for C7 at an object whose `metadata.managedFields` is the
non-null empty array. -/
theorem strip_pipeline_managed_fields_witness :
    mfObj.pointerGet managedFieldsPtr = some (Json.arr []) ∧
      (apply_strips mfObj [Strip.managedFields]).pointerGet managedFieldsPtr
        = some Json.null :=
  ⟨rfl, strip_pipeline_managed_fields.2 mfObj (Json.arr []) rfl
    (fun h => Json.noConfusion h)⟩

/-- C8: the descriptors produced from a discovery response are exactly the
response entries whose name contains no '/' and whose verbs include "list",
with `plural` (the entry name) and the group-version string taken verbatim;
only the static bootstrap path `from_kube` pluralizes, by lowercase kind
plus "s". -/
theorem discovered_descriptors_verbatim :
    (∀ (list : discover.APIResourceList) (r : discover.ApiResource),
      r ∈ discover.ApiResource.from_kube_api_resource_list list ↔
        ∃ entry, entry ∈ list.resources ∧ ¬ '/' ∈ entry.name ∧
          "list".toList ∈ entry.verbs ∧
          r = discover.ApiResource.mk list.group_version entry.kind
            entry.name) ∧
    (∀ api_version kind : Str,
      discover.ApiResource.from_kube api_version kind =
        discover.ApiResource.mk api_version kind
          (kind.map Char.toLower ++ "s".toList)) := by
  constructor
  · intro list r
    simp only [discover.ApiResource.from_kube_api_resource_list,
      List.mem_map, List.mem_filter, Bool.and_eq_true, Bool.not_eq_true',
      List.contains, List.elem_eq_mem, decide_eq_false_iff_not,
      List.any_eq_true,
      beq_iff_eq]
    constructor
    · rintro ⟨entry, ⟨hmem, hslash, verb, hverb, hv⟩, hr⟩
      exact ⟨entry, hmem, hslash, hv ▸ hverb, hr.symm⟩
    · rintro ⟨entry, hmem, hslash, hverb, hr⟩
      exact ⟨entry, ⟨hmem, hslash, "list".toList, hverb, rfl⟩, hr.symm⟩
  · intro api_version kind
    rfl

/-! rsplit lemmas. -/

theorem rsplitLast_none_iff (sep : Char) :
    ∀ s : Str, rsplitLast sep s = none ↔ sep ∉ s := by
  intro s
  induction s with
  | nil => simp [rsplitLast]
  | cons c rest ih =>
    cases h : rsplitLast sep rest with
    | some ba =>
      obtain ⟨b, a⟩ := ba
      simp only [rsplitLast, h]
      constructor
      · intro hf; exact absurd hf (by simp)
      · intro hf
        have : sep ∈ rest := by
          by_contra hni
          rw [← ih] at hni
          rw [hni] at h
          exact Option.noConfusion h
        exact absurd (List.mem_cons_of_mem c this) hf
    | none =>
      simp only [rsplitLast, h]
      by_cases hc : c = sep
      · simp [hc]
      · have hrest : sep ∉ rest := (ih).mp h
        have hsc : ¬ sep = c := fun hh => hc hh.symm
        simp [hc, List.mem_cons, hrest, hsc]

theorem rsplitLast_some_spec (sep : Char) :
    ∀ (s b a : Str), rsplitLast sep s = some (b, a) →
      s = b ++ sep :: a ∧ sep ∉ a := by
  intro s
  induction s with
  | nil => intro b a h; exact Option.noConfusion h
  | cons c rest ih =>
    intro b a h
    cases h2 : rsplitLast sep rest with
    | some ba =>
      obtain ⟨b2, a2⟩ := ba
      rw [rsplitLast, h2] at h
      simp only [Option.some.injEq, Prod.mk.injEq] at h
      obtain ⟨hb, ha⟩ := h
      obtain ⟨hrest, hna⟩ := ih b2 a2 h2
      subst hb; subst ha
      exact ⟨by rw [hrest]; rfl, hna⟩
    | none =>
      rw [rsplitLast, h2] at h
      by_cases hc : c = sep
      · rw [if_pos hc] at h
        simp only [Option.some.injEq, Prod.mk.injEq] at h
        obtain ⟨hb, ha⟩ := h
        subst hb; subst ha
        exact ⟨by rw [hc]; rfl, ((rsplitLast_none_iff sep rest).mp h2)⟩
      · rw [if_neg hc] at h
        exact Option.noConfusion h

/-- C9: for every event whose target reference has a name and a kind, the
grouping key exists; its group component is the text before the last '/' of
the reference's apiVersion and is `none` exactly when that string — with a
missing apiVersion defaulted to "v1" — contains no '/'; such a core-group
key is laid out by `dump_events` with an empty group, i.e. against the
core-group layout path. -/
theorem event_group_derivation (ev : Event) (nm kd : Str)
    (hn : ev.involved_object.name = some nm)
    (hk : ev.involved_object.kind = some kd) :
    (InvolvedObject.from_event ev).isSome = true ∧
    ∀ key, InvolvedObject.from_event ev = some key →
      key.kind = kd ∧ key.name = nm ∧
      key.nspace = ev.involved_object.nspace ∧
      (key.group = none ↔
        '/' ∉ ev.involved_object.api_version.getD "v1".toList) ∧
      (∀ t, key.group = some t →
        ∃ v, ev.involved_object.api_version.getD "v1".toList = t ++ '/' :: v
          ∧ '/' ∉ v) ∧
      (ev.involved_object.api_version = none → key.group = none) ∧
      (key.group = none → (event_resource key).group = []) := by
  have hdef : InvolvedObject.from_event ev =
      some (InvolvedObject.mk
        ((rsplitLast '/'
            (ev.involved_object.api_version.getD "v1".toList)).map
          (fun ba => ba.1))
        kd ev.involved_object.nspace nm) := by
    rw [InvolvedObject.from_event, hn, hk]
  refine ⟨by rw [hdef]; rfl, ?_⟩
  intro key hkey
  rw [hdef] at hkey
  have hkeyeq := Option.some.inj hkey
  subst hkeyeq
  have hresource : ∀ k : InvolvedObject, k.group = none →
      (event_resource k).group = [] := by
    intro k hk2
    simp [event_resource, hk2]
  cases hx : rsplitLast '/'
      (ev.involved_object.api_version.getD "v1".toList) with
  | none =>
    have hnone : '/' ∉ ev.involved_object.api_version.getD "v1".toList :=
      (rsplitLast_none_iff '/' _).mp hx
    refine ⟨rfl, rfl, rfl, ?_, ?_, ?_, hresource _⟩
    · simp only [hx, Option.map_none']
      simpa using hnone
    · intro t ht
      simp [hx] at ht
    · intro hav
      simp [hx]
  | some ba =>
    obtain ⟨b, a⟩ := ba
    obtain ⟨hs, hna⟩ := rsplitLast_some_spec '/' _ b a hx
    refine ⟨rfl, rfl, rfl, ?_, ?_, ?_, ?_⟩
    · simp only [hx, Option.map_some']
      constructor
      · intro hfalse; exact Option.noConfusion hfalse
      · intro hnotin
        exact absurd
          (by rw [hs]; exact List.mem_append_right _ (List.mem_cons_self _ _))
          hnotin
    · intro t ht
      simp only [hx, Option.map_some', Option.some.injEq] at ht
      subst ht
      exact ⟨a, hs, hna⟩
    · intro hav
      rw [hav] at hs
      simp only [Option.getD_none] at hs
      have hmem2 : '/' ∈ "v1".toList := by
        rw [hs]
        exact List.mem_append_right _ (List.mem_cons_self _ _)
      exact absurd hmem2 (by decide)
    · intro hg
      simp [hx] at hg

/-- Witness for C9 at an event whose reference carries apiVersion
"apps/v1". -/
theorem event_group_derivation_witness :
    (InvolvedObject.from_event c9Ev).isSome = true :=
  (event_group_derivation c9Ev "web".toList "Deployment".toList rfl rfl).1

/-! Generic dump loop lemmas. -/

theorem dump_types_never_fails (env : Environment) :
    ∀ apis, (dump_types env apis).2.2 = Except.ok () := by
  intro apis
  induction apis with
  | nil => rfl
  | cons hd rest ih =>
    obtain ⟨r, extras⟩ := hd
    cases hx : extras.list with
    | false => simpa [dump_types, hx] using ih
    | true =>
      rcases hdg : dump_api_group env r with ⟨ws, res⟩
      cases res with
      | ok u => simp [dump_types, hx, hdg, ih]
      | error e => simp [dump_types, hx, hdg, ih]

theorem dump_types_diag (env : Environment) :
    ∀ apis r extras e, (r, extras) ∈ apis → extras.list = true →
      (dump_api_group env r).2 = Except.error e →
      ("Failed to dump ".toList ++ r.api_version ++ ".".toList ++ r.kind
        ++ ": ".toList ++ e) ∈ (dump_types env apis).1 := by
  intro apis
  induction apis with
  | nil => intro r extras e hmem; simp at hmem
  | cons hd rest ih =>
    intro r extras e hmem hl herr
    obtain ⟨r2, x2⟩ := hd
    rcases List.mem_cons.mp hmem with heq | hmem2
    · rw [Prod.mk.injEq] at heq
      obtain ⟨h1, h2⟩ := heq
      subst h1; subst h2
      rcases hdg : dump_api_group env r with ⟨ws, res⟩
      rw [hdg] at herr
      simp only at herr
      subst herr
      simp [dump_types, hl, hdg]
    · have hmem3 := ih r extras e hmem2 hl herr
      cases hx : x2.list with
      | false => simpa [dump_types, hx] using hmem3
      | true =>
        rcases hdg : dump_api_group env r2 with ⟨ws, res⟩
        cases res with
        | ok u => simpa [dump_types, hx, hdg] using hmem3
        | error e2 =>
          simp only [dump_types, hx, hdg, Bool.not_true, Bool.false_eq_true,
            if_false]
          exact List.mem_cons_of_mem _ hmem3

theorem dump_types_writes (env : Environment) :
    ∀ apis r extras w, (r, extras) ∈ apis → extras.list = true →
      w ∈ (dump_api_group env r).1 → w ∈ (dump_types env apis).2.1 := by
  intro apis
  induction apis with
  | nil => intro r extras w hmem; simp at hmem
  | cons hd rest ih =>
    intro r extras w hmem hl hw
    obtain ⟨r2, x2⟩ := hd
    rcases List.mem_cons.mp hmem with heq | hmem2
    · rw [Prod.mk.injEq] at heq
      obtain ⟨h1, h2⟩ := heq
      subst h1; subst h2
      rcases hdg : dump_api_group env r with ⟨ws, res⟩
      rw [hdg] at hw
      simp only at hw
      cases res with
      | ok u =>
        simp only [dump_types, hl, hdg, Bool.not_true, Bool.false_eq_true,
          if_false]
        exact List.mem_append_left _ hw
      | error e =>
        simp only [dump_types, hl, hdg, Bool.not_true, Bool.false_eq_true,
          if_false]
        exact List.mem_append_left _ hw
    · have hmem3 := ih r extras w hmem2 hl hw
      cases hx : x2.list with
      | false => simpa [dump_types, hx] using hmem3
      | true =>
        rcases hdg : dump_api_group env r2 with ⟨ws, res⟩
        cases res with
        | ok u =>
          simp only [dump_types, hx, hdg, Bool.not_true, Bool.false_eq_true,
            if_false]
          exact List.mem_append_right _ hmem3
        | error e2 =>
          simp only [dump_types, hx, hdg, Bool.not_true, Bool.false_eq_true,
            if_false]
          exact List.mem_append_right _ hmem3

/-- C2 (amended): a failure at any step of dumping one resource type —
its list request, or serializing or writing one of its objects — aborts
that type, is logged as a diagnostic, and the dumper proceeds to the next
type; provided the cluster-level files are written successfully, `dump`
always returns `Ok`, so an object-level I/O error is not fatal to the whole
run, and every successfully dumped type's writes are present. -/
theorem dump_isolates_type_failures (env : Environment)
    (hv : ∃ v, env.apiserver_version_json = Except.ok v ∧
      env.write_file env.layout.cluster_version v = Except.ok ())
    (ha : ∃ a, env.apis_json = Except.ok a ∧
      env.write_file env.layout.cluster_api_resources a = Except.ok ()) :
    (dump env).2.2 = Except.ok () ∧
    (∀ r extras e, (r, extras) ∈ env.apis → extras.list = true →
      (dump_api_group env r).2 = Except.error e →
      ("Failed to dump ".toList ++ r.api_version ++ ".".toList ++ r.kind
        ++ ": ".toList ++ e) ∈ (dump env).1) ∧
    (∀ r extras w, (r, extras) ∈ env.apis → extras.list = true →
      w ∈ (dump_api_group env r).1 → w ∈ (dump env).2.1) := by
  obtain ⟨v, hv1, hv2⟩ := hv
  obtain ⟨a, ha1, ha2⟩ := ha
  have hd : dump env = ((dump_types env env.apis).1,
      (env.layout.cluster_version, v)
        :: (env.layout.cluster_api_resources, a)
        :: (dump_types env env.apis).2.1,
      (dump_types env env.apis).2.2) := by
    simp only [dump, hv1, hv2, ha1, ha2]
  rw [hd]
  refine ⟨dump_types_never_fails env env.apis, ?_, ?_⟩
  · intro r extras e hmem hl herr
    exact dump_types_diag env env.apis r extras e hmem hl herr
  · intro r extras w hmem hl hw
    exact List.mem_cons_of_mem _ (List.mem_cons_of_mem _
      (dump_types_writes env env.apis r extras w hmem hl hw))

/-- Witness for C2's amended claim on `cxEnv`, whose type A fails with an
object write error while type B succeeds. -/
theorem dump_isolates_type_failures_witness :
    (dump cxEnv).2.2 = Except.ok () ∧
      (cxPathB, "x".toList) ∈ (dump cxEnv).2.1 :=
  ⟨(dump_isolates_type_failures cxEnv ⟨"v".toList, rfl, rfl⟩
      ⟨"j".toList, rfl, rfl⟩).1,
    (dump_isolates_type_failures cxEnv ⟨"v".toList, rfl, rfl⟩
      ⟨"j".toList, rfl, rfl⟩).2.2 rB (ApiCapabilities.mk true)
      (cxPathB, "x".toList) (by decide) rfl (by decide)⟩

/-- C2 counterexample: in `cxEnv` the write of type A's only object fails
with an I/O error, yet `dump` does not return that error — it returns `Ok`
and proceeds to dump type B — refuting that an object-level I/O error is
fatal to the whole run. -/
theorem dump_object_write_error_not_fatal :
    (dump_api_group cxEnv rA).2 = Except.error "io error".toList ∧
    (dump cxEnv).2.2 = Except.ok () ∧
    (cxPathB, "x".toList) ∈ (dump cxEnv).2.1 := by
  refine ⟨rfl, rfl, by decide⟩

/-! Discovery fold lemmas. -/

theorem discover_fold_mono_res (client : discover.Client) :
    ∀ (gs : List discover.APIGroup)
      (acc : List Str × List discover.ApiResource)
      (r : discover.ApiResource), r ∈ acc.2 →
      r ∈ (gs.foldl (discover.discover_group_step client) acc).2 := by
  intro gs
  induction gs with
  | nil => intro acc r h; exact h
  | cons g rest ih =>
    intro acc r h
    simp only [List.foldl_cons]
    apply ih
    unfold discover.discover_group_step
    cases discover.discover_api_group client g with
    | ok a => exact List.mem_append_left _ h
    | error e => exact h

theorem discover_fold_mono_diag (client : discover.Client) :
    ∀ (gs : List discover.APIGroup)
      (acc : List Str × List discover.ApiResource)
      (d : Str), d ∈ acc.1 →
      d ∈ (gs.foldl (discover.discover_group_step client) acc).1 := by
  intro gs
  induction gs with
  | nil => intro acc d h; exact h
  | cons g rest ih =>
    intro acc d h
    simp only [List.foldl_cons]
    apply ih
    unfold discover.discover_group_step
    cases discover.discover_api_group client g with
    | ok a => exact h
    | error e => exact List.mem_append_left _ h

theorem discover_fold_mem (client : discover.Client) :
    ∀ (gs : List discover.APIGroup)
      (acc : List Str × List discover.ApiResource)
      (g : discover.APIGroup) (rs : List discover.ApiResource)
      (r : discover.ApiResource), g ∈ gs →
      discover.discover_api_group client g = Except.ok rs → r ∈ rs →
      r ∈ (gs.foldl (discover.discover_group_step client) acc).2 := by
  intro gs
  induction gs with
  | nil => intro acc g rs r h; simp at h
  | cons g2 rest ih =>
    intro acc g rs r hmem hok hr
    rcases List.mem_cons.mp hmem with heq | hmem2
    · subst heq
      simp only [List.foldl_cons]
      apply discover_fold_mono_res
      unfold discover.discover_group_step
      rw [hok]
      exact List.mem_append_right _ hr
    · simp only [List.foldl_cons]
      exact ih _ g rs r hmem2 hok hr

theorem discover_fold_diag (client : discover.Client) :
    ∀ (gs : List discover.APIGroup)
      (acc : List Str × List discover.ApiResource)
      (g : discover.APIGroup) (e : Str), g ∈ gs →
      discover.discover_api_group client g = Except.error e →
      ("Warning: failed to discover api group ".toList ++ g.name
        ++ ": ".toList ++ e)
        ∈ (gs.foldl (discover.discover_group_step client) acc).1 := by
  intro gs
  induction gs with
  | nil => intro acc g e h; simp at h
  | cons g2 rest ih =>
    intro acc g e hmem herr
    rcases List.mem_cons.mp hmem with heq | hmem2
    · subst heq
      simp only [List.foldl_cons]
      apply discover_fold_mono_diag
      unfold discover.discover_group_step
      rw [herr]
      exact List.mem_append_right _ (List.mem_singleton.mpr rfl)
    · simp only [List.foldl_cons]
      exact ih _ g e hmem2 herr

theorem discover_apis_diag_of_grouped (client : discover.Client) (d : Str)
    (h : d ∈ (discover.discover_grouped_apis client).1) :
    d ∈ (discover.discover_apis client).1 := by
  rcases h1 : (discover.discover_grouped_apis client).2 with e1 | l1 <;>
    rcases h2 : discover.discover_legacy_apis client with e2 | l2 <;>
    simp only [discover.discover_apis, h1, h2, List.foldl_cons,
      List.foldl_nil] <;>
    simp [h]

theorem discover_apis_res_of_grouped (client : discover.Client)
    (r : discover.ApiResource) (l1 : List discover.ApiResource)
    (h1 : (discover.discover_grouped_apis client).2 = Except.ok l1)
    (hr : r ∈ l1) :
    ∀ l, (discover.discover_apis client).2 = Except.ok l → r ∈ l := by
  intro l hl
  rcases h2 : discover.discover_legacy_apis client with e2 | l2 <;>
    rw [discover.discover_apis] at hl <;>
    simp only [h1, h2, List.foldl_cons, List.foldl_nil,
      Except.ok.injEq] at hl <;>
    subst hl <;> simp [hr]

theorem discover_apis_res_of_legacy (client : discover.Client)
    (r : discover.ApiResource) (l2 : List discover.ApiResource)
    (h2 : discover.discover_legacy_apis client = Except.ok l2)
    (hr : r ∈ l2) :
    ∀ l, (discover.discover_apis client).2 = Except.ok l → r ∈ l := by
  intro l hl
  rcases h1 : (discover.discover_grouped_apis client).2 with e1 | l1 <;>
    rw [discover.discover_apis] at hl <;>
    simp only [h1, h2, List.foldl_cons, List.foldl_nil,
      Except.ok.injEq] at hl <;>
    subst hl <;> simp [hr]

theorem discover_apis_diag_of_grouped_error (client : discover.Client)
    (e : Str) (h1 : (discover.discover_grouped_apis client).2 =
      Except.error e) :
    ("Failed to discover apis: ".toList ++ e)
      ∈ (discover.discover_apis client).1 := by
  rcases h2 : discover.discover_legacy_apis client with e2 | l2 <;>
    simp [discover.discover_apis, h1, h2]

theorem discover_apis_diag_of_legacy_error (client : discover.Client)
    (e : Str) (h2 : discover.discover_legacy_apis client =
      Except.error e) :
    ("Failed to discover apis: ".toList ++ e)
      ∈ (discover.discover_apis client).1 := by
  rcases h1 : (discover.discover_grouped_apis client).2 with e1 | l1 <;>
    simp [discover.discover_apis, h1, h2]

/-- C1 (amended): per-group discovery failures are diagnosed and do not
affect other groups, whose resources are all present in the returned
catalog; but `discover_apis` as a whole never returns an error — a failing
top-level group-list request, a failing legacy request chain, or an absent
legacy "v1" are likewise caught with a diagnostic while the resources from
the other source are still returned. -/
theorem discovery_partial_failure_policy (client : discover.Client) :
    (discover.discover_apis client).2.isOk = true ∧
    (∀ gl, client.list_api_groups = Except.ok gl →
      (∀ g e, g ∈ gl.groups →
        discover.discover_api_group client g = Except.error e →
        ("Warning: failed to discover api group ".toList ++ g.name
          ++ ": ".toList ++ e) ∈ (discover.discover_apis client).1) ∧
      (∀ g rs r, g ∈ gl.groups →
        discover.discover_api_group client g = Except.ok rs → r ∈ rs →
        ∀ l, (discover.discover_apis client).2 = Except.ok l → r ∈ l)) ∧
    (∀ e, (discover.discover_grouped_apis client).2 = Except.error e →
      ("Failed to discover apis: ".toList ++ e)
        ∈ (discover.discover_apis client).1) ∧
    (∀ e, discover.discover_legacy_apis client = Except.error e →
      ("Failed to discover apis: ".toList ++ e)
        ∈ (discover.discover_apis client).1) ∧
    (∀ ls r, discover.discover_legacy_apis client = Except.ok ls →
      r ∈ ls → ∀ l, (discover.discover_apis client).2 = Except.ok l →
      r ∈ l) := by
  refine ⟨rfl, ?_, discover_apis_diag_of_grouped_error client,
    discover_apis_diag_of_legacy_error client, ?_⟩
  · intro gl hgl
    have hspec : discover.discover_grouped_apis client =
        ((gl.groups.foldl (discover.discover_group_step client)
            ([], [])).1,
          Except.ok ((gl.groups.foldl (discover.discover_group_step client)
            ([], [])).2)) := by
      simp [discover.discover_grouped_apis, hgl]
    constructor
    · intro g e hmem herr
      apply discover_apis_diag_of_grouped
      rw [hspec]
      exact discover_fold_diag client gl.groups ([], []) g e hmem herr
    · intro g rs r hmem hok hr
      apply discover_apis_res_of_grouped client r _ (by rw [hspec])
      exact discover_fold_mem client gl.groups ([], []) g rs r hmem hok hr
  · intro ls r h2 hr
    exact discover_apis_res_of_legacy client r ls h2 hr

/-- Witness for C1's amended claim on `wClient`: the broken group "bad"
yields a warning, the healthy group's Deployment resource is in the
catalog. -/
theorem discovery_partial_failure_policy_witness :
    (discover.discover_apis wClient).2.isOk = true ∧
    ("Warning: failed to discover api group ".toList ++ "bad".toList
      ++ ": ".toList ++ "preferredVersion missing".toList)
      ∈ (discover.discover_apis wClient).1 ∧
    discover.ApiResource.mk "apps/v1".toList "Deployment".toList
      "deployments".toList
      ∈ [discover.ApiResource.mk "apps/v1".toList "Deployment".toList
          "deployments".toList] :=
  ⟨(discovery_partial_failure_policy wClient).1,
    ((discovery_partial_failure_policy wClient).2.1
        (discover.APIGroupList.mk
          [discover.APIGroup.mk "bad".toList none,
            discover.APIGroup.mk "apps".toList
              (some (discover.GroupVersionForDiscovery.mk "v1".toList))])
        rfl).1
      (discover.APIGroup.mk "bad".toList none)
      "preferredVersion missing".toList (by decide) rfl,
    ((discovery_partial_failure_policy wClient).2.1
        (discover.APIGroupList.mk
          [discover.APIGroup.mk "bad".toList none,
            discover.APIGroup.mk "apps".toList
              (some (discover.GroupVersionForDiscovery.mk "v1".toList))])
        rfl).2
      (discover.APIGroup.mk "apps".toList
        (some (discover.GroupVersionForDiscovery.mk "v1".toList)))
      [discover.ApiResource.mk "apps/v1".toList "Deployment".toList
        "deployments".toList]
      (discover.ApiResource.mk "apps/v1".toList "Deployment".toList
        "deployments".toList)
      (by decide) rfl (by decide)
      [discover.ApiResource.mk "apps/v1".toList "Deployment".toList
        "deployments".toList]
      rfl⟩

/-- C1 counterexample: for `cxClient` the top-level group-list request
fails, yet `discover_apis` returns `Ok` with the legacy resources instead
of an error — refuting the claimed "returns an error if and only if". -/
theorem discovery_error_iff_refuted :
    cxClient.list_api_groups = Except.error "boom".toList ∧
    (discover.discover_apis cxClient).2 =
      Except.ok [discover.ApiResource.mk "v1".toList "Pod".toList
        "pods".toList] :=
  ⟨rfl, rfl⟩

/-! Comparator laws. -/

theorem cmpStr_self : ∀ s : Str, cmpStr s s = Ordering.eq
  | [] => rfl
  | c :: rest => by simp [cmpStr, cmpStr_self rest]

theorem cmpStr_eq_iff : ∀ a b : Str, cmpStr a b = Ordering.eq ↔ a = b
  | [], [] => by simp [cmpStr]
  | [], b :: bs => by simp [cmpStr]
  | a :: xs, [] => by simp [cmpStr]
  | a :: xs, b :: bs => by
    by_cases hab : a = b
    · subst hab
      simp [cmpStr, cmpStr_eq_iff xs bs]
    · by_cases hlt : a < b <;> simp [cmpStr, hab, hlt]

theorem cmpStr_swap : ∀ a b : Str, cmpStr b a = (cmpStr a b).swap
  | [], [] => rfl
  | [], b :: bs => rfl
  | a :: xs, [] => rfl
  | a :: xs, b :: bs => by
    by_cases hab : a = b
    · subst hab
      simp [cmpStr, cmpStr_swap xs bs]
    · have hba : ¬ b = a := fun h => hab h.symm
      by_cases hlt : a < b
      · have h2 : ¬ b < a := asymm hlt
        simp [cmpStr, hab, hba, hlt, h2, Ordering.swap]
      · have h2 : b < a := by
          rcases lt_trichotomy a b with h | h | h
          · exact absurd h hlt
          · exact absurd h hab
          · exact h
        simp [cmpStr, hab, hba, hlt, h2, Ordering.swap]

theorem cmpStr_lt_trans : ∀ a b c : Str, cmpStr a b = Ordering.lt →
    cmpStr b c = Ordering.lt → cmpStr a c = Ordering.lt := by
  intro a
  induction a with
  | nil =>
    intro b c h1 h2
    cases b with
    | nil => simp [cmpStr] at h1
    | cons b0 bs =>
      cases c with
      | nil => simp [cmpStr] at h2
      | cons c0 cs => simp [cmpStr]
  | cons a0 xs ih =>
    intro b c h1 h2
    cases b with
    | nil => simp [cmpStr] at h1
    | cons b0 bs =>
      cases c with
      | nil => simp [cmpStr] at h2
      | cons c0 cs =>
        by_cases hab : a0 = b0
        · subst hab
          simp only [cmpStr, if_pos rfl] at h1
          by_cases hbc : a0 = c0
          · subst hbc
            simp only [cmpStr, if_pos rfl] at h2 ⊢
            exact ih bs cs h1 h2
          · by_cases hltbc : a0 < c0
            · simp [cmpStr, hbc, hltbc]
            · simp [cmpStr, hbc, hltbc] at h2
        · by_cases hltab : a0 < b0
          · by_cases hbc : b0 = c0
            · subst hbc
              simp [cmpStr, hab, hltab]
            · by_cases hltbc : b0 < c0
              · have hlt2 : a0 < c0 := lt_trans hltab hltbc
                have hne : ¬ a0 = c0 := ne_of_lt hlt2
                simp [cmpStr, hne, hlt2]
              · simp [cmpStr, hbc, hltbc] at h2
          · simp [cmpStr, hab, hltab] at h1

theorem cmpOptStr_self : ∀ a : Option Str, cmpOptStr a a = Ordering.eq := by
  intro a
  cases a <;> simp [cmpOptStr, cmpStr_self]

theorem cmpOptStr_eq_iff : ∀ a b : Option Str,
    cmpOptStr a b = Ordering.eq ↔ a = b := by
  intro a b
  cases a <;> cases b <;> simp [cmpOptStr, cmpStr_eq_iff]

theorem cmpOptStr_swap : ∀ a b : Option Str,
    cmpOptStr b a = (cmpOptStr a b).swap := by
  intro a b
  cases a with
  | none =>
    cases b with
    | none => rfl
    | some y => rfl
  | some x =>
    cases b with
    | none => rfl
    | some y =>
      simp only [cmpOptStr]
      exact cmpStr_swap x y

theorem cmpOptStr_lt_trans (a b c : Option Str)
    (h1 : cmpOptStr a b = Ordering.lt) (h2 : cmpOptStr b c = Ordering.lt) :
    cmpOptStr a c = Ordering.lt := by
  cases a <;> cases b <;> cases c <;>
    simp [cmpOptStr] at h1 h2 ⊢ <;>
    try exact cmpStr_lt_trans _ _ _ h1 h2

theorem lexStep_eq_iff {o r : Ordering} :
    lexStep o r = Ordering.eq ↔ (o = Ordering.eq ∧ r = Ordering.eq) := by
  cases o <;> simp [lexStep]

theorem lexStep_lt_iff {o r : Ordering} :
    lexStep o r = Ordering.lt ↔
      (o = Ordering.lt ∨ (o = Ordering.eq ∧ r = Ordering.lt)) := by
  cases o <;> simp [lexStep]

theorem lexStep_swap (o r : Ordering) :
    lexStep o.swap r.swap = (lexStep o r).swap := by
  cases o <;> simp [lexStep, Ordering.swap]

theorem cmpInvolved_self (a : InvolvedObject) :
    cmpInvolved a a = Ordering.eq := by
  simp [cmpInvolved, lexStep, cmpStr_self, cmpOptStr_self]

theorem cmpInvolved_eq_iff (a b : InvolvedObject) :
    cmpInvolved a b = Ordering.eq ↔ a = b := by
  obtain ⟨g1, k1, s1, n1⟩ := a
  obtain ⟨g2, k2, s2, n2⟩ := b
  simp [cmpInvolved, lexStep_eq_iff, cmpOptStr_eq_iff, cmpStr_eq_iff,
    InvolvedObject.mk.injEq, and_assoc]

theorem cmpInvolved_swap (a b : InvolvedObject) :
    cmpInvolved b a = (cmpInvolved a b).swap := by
  obtain ⟨g1, k1, s1, n1⟩ := a
  obtain ⟨g2, k2, s2, n2⟩ := b
  simp only [cmpInvolved]
  rw [cmpOptStr_swap g1 g2, cmpStr_swap k1 k2, cmpOptStr_swap s1 s2,
    cmpStr_swap n1 n2, lexStep_swap, lexStep_swap, lexStep_swap]

theorem cmpInvolved_lt_of_gt {a b : InvolvedObject}
    (h : cmpInvolved a b = Ordering.gt) : cmpInvolved b a = Ordering.lt := by
  rw [cmpInvolved_swap, h]
  rfl

theorem cmpInvolved_lt_trans {a b c : InvolvedObject}
    (h1 : cmpInvolved a b = Ordering.lt)
    (h2 : cmpInvolved b c = Ordering.lt) :
    cmpInvolved a c = Ordering.lt := by
  obtain ⟨g1, k1, s1, n1⟩ := a
  obtain ⟨g2, k2, s2, n2⟩ := b
  obtain ⟨g3, k3, s3, n3⟩ := c
  simp only [cmpInvolved, lexStep_lt_iff, lexStep_eq_iff, cmpOptStr_eq_iff,
    cmpStr_eq_iff] at h1 h2 ⊢
  rcases h1 with hg | ⟨hgeq, h1b⟩
  · rcases h2 with hg2 | ⟨hgeq2, h2b⟩
    · exact Or.inl (cmpOptStr_lt_trans _ _ _ hg hg2)
    · subst hgeq2
      exact Or.inl hg
  · subst hgeq
    rcases h2 with hg2 | ⟨hgeq2, h2b⟩
    · exact Or.inl hg2
    · subst hgeq2
      refine Or.inr ⟨rfl, ?_⟩
      rcases h1b with hk | ⟨hkeq, h1c⟩
      · rcases h2b with hk2 | ⟨hkeq2, h2c⟩
        · exact Or.inl (cmpStr_lt_trans _ _ _ hk hk2)
        · subst hkeq2
          exact Or.inl hk
      · subst hkeq
        rcases h2b with hk2 | ⟨hkeq2, h2c⟩
        · exact Or.inl hk2
        · subst hkeq2
          refine Or.inr ⟨rfl, ?_⟩
          rcases h1c with hs | ⟨hseq, h1d⟩
          · rcases h2c with hs2 | ⟨hseq2, h2d⟩
            · exact Or.inl (cmpOptStr_lt_trans _ _ _ hs hs2)
            · subst hseq2
              exact Or.inl hs
          · subst hseq
            rcases h2c with hs2 | ⟨hseq2, h2d⟩
            · exact Or.inl hs2
            · subst hseq2
              refine Or.inr ⟨rfl, ?_⟩
              exact cmpStr_lt_trans _ _ _ h1d h2d

/-! BTreeMap model lemmas. -/

theorem lookupKey_none_of_lt (k : InvolvedObject) :
    ∀ m, (∀ p ∈ m, cmpInvolved k p.1 = Ordering.lt) →
      lookupKey m k = none := by
  intro m
  induction m with
  | nil => intro; rfl
  | cons hd rest ih =>
    intro hall
    obtain ⟨k2, evs⟩ := hd
    have h1 := hall (k2, evs) (List.mem_cons_self _ _)
    have hne : ¬ k2 = k := by
      intro he
      subst he
      rw [cmpInvolved_self] at h1
      exact Ordering.noConfusion h1
    simp only [lookupKey, if_neg hne]
    exact ih (fun p hp => hall p (List.mem_cons_of_mem _ hp))

theorem btreeInsert_mem_keys (k : InvolvedObject) (ev : Event) :
    ∀ m p, p ∈ btreeInsert k ev m → p.1 = k ∨ ∃ q ∈ m, q.1 = p.1 := by
  intro m
  induction m with
  | nil =>
    intro p hp
    simp only [btreeInsert, List.mem_singleton] at hp
    subst hp
    exact Or.inl rfl
  | cons hd rest ih =>
    intro p hp
    obtain ⟨k2, evs⟩ := hd
    cases hc : cmpInvolved k k2 with
    | lt =>
      rw [btreeInsert, hc] at hp
      rcases List.mem_cons.mp hp with heq | hmem
      · subst heq
        exact Or.inl rfl
      · exact Or.inr ⟨p, hmem, rfl⟩
    | eq =>
      rw [btreeInsert, hc] at hp
      rcases List.mem_cons.mp hp with heq | hmem
      · subst heq
        exact Or.inr ⟨(k2, evs), List.mem_cons_self _ _, rfl⟩
      · exact Or.inr ⟨p, List.mem_cons_of_mem _ hmem, rfl⟩
    | gt =>
      rw [btreeInsert, hc] at hp
      rcases List.mem_cons.mp hp with heq | hmem
      · subst heq
        exact Or.inr ⟨(k2, evs), List.mem_cons_self _ _, rfl⟩
      · rcases ih p hmem with h | ⟨q, hq, he⟩
        · exact Or.inl h
        · exact Or.inr ⟨q, List.mem_cons_of_mem _ hq, he⟩

theorem btreeInsert_sorted (k : InvolvedObject) (ev : Event) :
    ∀ m, SortedKeys m → SortedKeys (btreeInsert k ev m) := by
  intro m
  induction m with
  | nil =>
    intro
    simp [btreeInsert, SortedKeys]
  | cons hd rest ih =>
    intro hs
    obtain ⟨k2, evs⟩ := hd
    unfold SortedKeys at hs
    rw [List.pairwise_cons] at hs
    obtain ⟨hhead, hrest⟩ := hs
    cases hc : cmpInvolved k k2 with
    | lt =>
      rw [SortedKeys, btreeInsert, hc, List.pairwise_cons]
      constructor
      · intro p hp
        rcases List.mem_cons.mp hp with heq | hmem
        · subst heq
          exact hc
        · exact cmpInvolved_lt_trans hc (hhead p hmem)
      · rw [List.pairwise_cons]
        exact ⟨hhead, hrest⟩
    | eq =>
      rw [SortedKeys, btreeInsert, hc, List.pairwise_cons]
      exact ⟨hhead, hrest⟩
    | gt =>
      rw [SortedKeys, btreeInsert, hc, List.pairwise_cons]
      constructor
      · intro p hp
        rcases btreeInsert_mem_keys k ev rest p hp with h | ⟨q, hq, he⟩
        · rw [h]
          exact cmpInvolved_lt_of_gt hc
        · rw [← he]
          exact hhead q hq
      · exact ih hrest

theorem btreeInsert_lookup_self (k : InvolvedObject) (ev : Event) :
    ∀ m, SortedKeys m →
      lookupKey (btreeInsert k ev m) k =
        some ((lookupKey m k).getD [] ++ [ev]) := by
  intro m
  induction m with
  | nil =>
    intro
    simp [btreeInsert, lookupKey]
  | cons hd rest ih =>
    intro hs
    obtain ⟨k2, evs⟩ := hd
    unfold SortedKeys at hs
    rw [List.pairwise_cons] at hs
    obtain ⟨hhead, hrest⟩ := hs
    cases hc : cmpInvolved k k2 with
    | lt =>
      have hne : ¬ k2 = k := by
        intro he
        subst he
        rw [cmpInvolved_self] at hc
        exact Ordering.noConfusion hc
      have hnone : lookupKey rest k = none := by
        apply lookupKey_none_of_lt
        intro p hp
        exact cmpInvolved_lt_trans hc (hhead p hp)
      rw [btreeInsert, hc]
      simp [lookupKey, hne, hnone]
    | eq =>
      have heq : k = k2 := (cmpInvolved_eq_iff k k2).mp hc
      subst heq
      rw [btreeInsert, hc]
      simp [lookupKey]
    | gt =>
      have hne : ¬ k2 = k := by
        intro he
        subst he
        rw [cmpInvolved_self] at hc
        exact Ordering.noConfusion hc
      rw [btreeInsert, hc]
      simp only [lookupKey, if_neg hne]
      exact ih hrest

theorem btreeInsert_lookup_other (k : InvolvedObject) (ev : Event)
    (k2 : InvolvedObject) (hne : k2 ≠ k) :
    ∀ m, lookupKey (btreeInsert k ev m) k2 = lookupKey m k2 := by
  intro m
  induction m with
  | nil =>
    have hne2 : ¬ k = k2 := fun h => hne h.symm
    simp [btreeInsert, lookupKey, hne2]
  | cons hd rest ih =>
    obtain ⟨k3, evs⟩ := hd
    cases hc : cmpInvolved k k3 with
    | lt =>
      have hne2 : ¬ k = k2 := fun h => hne h.symm
      rw [btreeInsert, hc]
      simp only [lookupKey, if_neg hne2]
    | eq =>
      have heq : k = k3 := (cmpInvolved_eq_iff k k3).mp hc
      subst heq
      rw [btreeInsert, hc]
      have hne3 : ¬ k = k2 := fun h => hne h.symm
      simp only [lookupKey, if_neg hne3]
    | gt =>
      rw [btreeInsert, hc]
      by_cases h3 : k3 = k2
      · simp only [lookupKey, if_pos h3]
      · simp only [lookupKey, if_neg h3]
        exact ih

theorem mem_iff_lookupKey :
    ∀ m, SortedKeys m → ∀ (k : InvolvedObject) (es : List Event),
      ((k, es) ∈ m ↔ lookupKey m k = some es) := by
  intro m
  induction m with
  | nil => intro hs k es; simp [lookupKey]
  | cons hd rest ih =>
    intro hs k es
    obtain ⟨k2, evs⟩ := hd
    unfold SortedKeys at hs
    rw [List.pairwise_cons] at hs
    obtain ⟨hhead, hrest⟩ := hs
    constructor
    · intro h
      rcases List.mem_cons.mp h with heq | hmem
      · rw [Prod.mk.injEq] at heq
        obtain ⟨h1, h2⟩ := heq
        subst h1
        subst h2
        simp [lookupKey]
      · have hlt := hhead (k, es) hmem
        have hne : ¬ k2 = k := by
          intro he
          subst he
          rw [cmpInvolved_self] at hlt
          exact Ordering.noConfusion hlt
        simp only [lookupKey, if_neg hne]
        exact (ih hrest k es).mp hmem
    · intro h
      by_cases h2 : k2 = k
      · subst h2
        simp [lookupKey] at h
        subst h
        exact List.mem_cons_self _ _
      · simp only [lookupKey, if_neg h2] at h
        exact List.mem_cons_of_mem _ ((ih hrest k es).mpr h)

theorem group_events_spec :
    ∀ (evs : List Event) (m : List (InvolvedObject × List Event))
      (d : List Str),
      (∀ ev ∈ evs, InvolvedObject.from_event ev = none → ev.nspace ≠ none) →
      SortedKeys m →
      ∃ m2, group_events evs m d =
          Except.ok (d ++ danglingDiags evs, m2) ∧
        SortedKeys m2 ∧
        ∀ k, lookupKey m2 k =
          match lookupKey m k,
            evs.filter (fun e => InvolvedObject.from_event e == some k) with
          | some es, f => some (es ++ f)
          | none, [] => none
          | none, f => some f := by
  intro evs
  induction evs with
  | nil =>
    intro m d hns hm
    refine ⟨m, ?_, hm, ?_⟩
    · simp [group_events, danglingDiags]
    · intro k
      cases h : lookupKey m k with
      | none => simp
      | some es => simp
  | cons ev rest ih =>
    intro m d hns hm
    cases hfe : InvolvedObject.from_event ev with
    | some obj =>
      have hm2 := btreeInsert_sorted obj ev m hm
      obtain ⟨m2, hrun, hs2, hlook⟩ := ih (btreeInsert obj ev m) d
        (fun e he hn => hns e (List.mem_cons_of_mem _ he) hn) hm2
      refine ⟨m2, ?_, hs2, ?_⟩
      · simp only [group_events, hfe]
        rw [hrun]
        simp [danglingDiags, hfe]
      · intro k
        rw [hlook k]
        by_cases hk : k = obj
        · subst hk
          rw [btreeInsert_lookup_self k ev m hm]
          have hpred : (InvolvedObject.from_event ev == some k) = true := by
            rw [hfe]
            simp
          have hfilter : (ev :: rest).filter
              (fun e => InvolvedObject.from_event e == some k) =
              ev :: rest.filter
                (fun e => InvolvedObject.from_event e == some k) := by
            simp [List.filter_cons, hpred]
          rw [hfilter]
          cases hl : lookupKey m k with
          | none => simp
          | some es => simp
        · have hpred : (InvolvedObject.from_event ev == some k) = false := by
            rw [hfe]
            exact beq_eq_false_iff_ne.mpr
              (fun h => hk (Option.some.inj h).symm)
          have hfilter : (ev :: rest).filter
              (fun e => InvolvedObject.from_event e == some k) =
              rest.filter
                (fun e => InvolvedObject.from_event e == some k) := by
            simp [List.filter_cons, hpred]
          rw [hfilter, btreeInsert_lookup_other obj ev k hk m]
    | none =>
      have hnsp := hns ev (List.mem_cons_self _ _) hfe
      cases hnse : ev.nspace with
      | none => exact absurd hnse hnsp
      | some ns =>
        obtain ⟨m2, hrun, hs2, hlook⟩ := ih m
          (d ++ ["Skipping dangling event ".toList ++ ns ++ "/".toList
            ++ ev.name])
          (fun e he hn => hns e (List.mem_cons_of_mem _ he) hn) hm
        refine ⟨m2, ?_, hs2, ?_⟩
        · simp only [group_events, hfe, hnse]
          rw [hrun]
          simp [danglingDiags, hfe, hnse]
        · intro k
          rw [hlook k]
          have hpred : (InvolvedObject.from_event ev == some k) = false := by
            rw [hfe]
            rfl
          have hfilter : (ev :: rest).filter
              (fun e => InvolvedObject.from_event e == some k) =
              rest.filter
                (fun e => InvolvedObject.from_event e == some k) := by
            simp [List.filter_cons, hpred]
          rw [hfilter]

theorem dump_event_groups_spec (env : EventsEnv)
    (hW : ∀ p s, env.write_file p s = Except.ok ()) :
    ∀ m, dump_event_groups env m =
      ((m.filter (fun g => !env.fs_exists (eventReprPath env g.1))).map
          (fun _ => "Skipping event referencing not existing object".toList),
        (m.filter (fun g => env.fs_exists (eventReprPath env g.1))).map
          (fun g => (eventLogPath env g.1,
            joinNewline (g.2.map event_to_string))),
        Except.ok ()) := by
  intro m
  induction m with
  | nil => simp [dump_event_groups]
  | cons hd rest ih =>
    obtain ⟨object, events⟩ := hd
    cases hfs : env.fs_exists (eventReprPath env object) with
    | false =>
      have hfs2 : env.fs_exists
          ((env.layout.object_layout (event_resource object) object.nspace
            object.name).representation) = false := hfs
      simp only [dump_event_groups, hfs2]
      rw [ih]
      simp [List.filter_cons, eventReprPath, hfs2]
    | true =>
      have hfs2 : env.fs_exists
          ((env.layout.object_layout (event_resource object) object.nspace
            object.name).representation) = true := hfs
      simp only [dump_event_groups, hfs2, hW]
      rw [ih]
      simp [List.filter_cons, eventReprPath, hfs2, eventLogPath]

theorem from_event_none_of_missing (ev : Event)
    (h : ev.involved_object.name = none ∨ ev.involved_object.kind = none) :
    InvolvedObject.from_event ev = none := by
  rcases h with h | h
  · simp [InvolvedObject.from_event, h]
  · cases hn : ev.involved_object.name with
    | none => simp [InvolvedObject.from_event, hn]
    | some nm => simp [InvolvedObject.from_event, hn, h]

/-- C3: for a successfully fetched event collection (all writes succeeding,
and dangling events carrying their own namespace — the source's diagnostic
formatting unwraps it): an event whose target reference lacks a name or a
kind is dropped with a diagnostic and appears in no group; each group holds
exactly the source-order events with its key; the files written are exactly
one `events.txt` per group whose referenced object's `raw.json` exists on
disk, containing the group's messages joined by newlines in source order;
and a group whose `raw.json` is absent contributes no write and logs a skip
diagnostic. -/
theorem event_correlator_behavior (env : EventsEnv) (evs : List Event)
    (hl : env.list_events = Except.ok evs)
    (hns : ∀ ev ∈ evs, InvolvedObject.from_event ev = none →
      ev.nspace ≠ none)
    (hW : ∀ p s, env.write_file p s = Except.ok ()) :
    (∀ k es, (k, es) ∈ event_mapping evs ↔
      (evs.filter (fun e => InvolvedObject.from_event e == some k) ≠ [] ∧
        es = evs.filter (fun e => InvolvedObject.from_event e == some k))) ∧
    (∀ ev ∈ evs,
      (ev.involved_object.name = none ∨ ev.involved_object.kind = none) →
      (∀ k es, (k, es) ∈ event_mapping evs → ev ∉ es) ∧
      (∃ ns, ev.nspace = some ns ∧
        ("Skipping dangling event ".toList ++ ns ++ "/".toList ++ ev.name)
          ∈ (dump_events env).1)) ∧
    ((dump_events env).2.1 =
      ((event_mapping evs).filter
          (fun g => env.fs_exists (eventReprPath env g.1))).map
        (fun g => (eventLogPath env g.1,
          joinNewline (g.2.map event_to_string)))) ∧
    (∀ k es, (k, es) ∈ event_mapping evs →
      env.fs_exists (eventReprPath env k) = false →
      "Skipping event referencing not existing object".toList
        ∈ (dump_events env).1) ∧
    ((dump_events env).2.2 = Except.ok ()) := by
  obtain ⟨m2, hrun, hs2, hlook⟩ :=
    group_events_spec evs [] [] hns (by simp [SortedKeys])
  have hmap : event_mapping evs = m2 := by
    simp only [event_mapping, hrun]
  have hde : dump_events env =
      (danglingDiags evs
        ++ (m2.filter
              (fun g => !env.fs_exists (eventReprPath env g.1))).map
            (fun _ =>
              "Skipping event referencing not existing object".toList),
        (m2.filter (fun g => env.fs_exists (eventReprPath env g.1))).map
          (fun g => (eventLogPath env g.1,
            joinNewline (g.2.map event_to_string))),
        Except.ok ()) := by
    simp only [dump_events, hl, hrun, dump_event_groups_spec env hW m2]
    simp
  have hmem : ∀ k es, (k, es) ∈ m2 ↔
      (evs.filter (fun e => InvolvedObject.from_event e == some k) ≠ [] ∧
        es = evs.filter
          (fun e => InvolvedObject.from_event e == some k)) := by
    intro k es
    rw [mem_iff_lookupKey m2 hs2 k es, hlook k]
    cases hf : evs.filter
        (fun e => InvolvedObject.from_event e == some k) with
    | nil => simp [lookupKey]
    | cons x xs =>
      simp only [lookupKey]
      constructor
      · intro h
        exact ⟨by simp, (Option.some.inj h).symm⟩
      · rintro ⟨hne, rfl⟩
        rfl
  refine ⟨?_, ?_, ?_, ?_, ?_⟩
  · intro k es
    rw [hmap]
    exact hmem k es
  · intro ev hev hmiss
    have hfe : InvolvedObject.from_event ev = none :=
      from_event_none_of_missing ev hmiss
    constructor
    · intro k es hk
      rw [hmap] at hk
      obtain ⟨hne, hesf⟩ := (hmem k es).mp hk
      subst hesf
      intro hmemev
      have hp := (List.mem_filter.mp hmemev).2
      rw [hfe] at hp
      simp at hp
    · cases hnse : ev.nspace with
      | none => exact absurd hnse (hns ev hev hfe)
      | some ns =>
        refine ⟨ns, rfl, ?_⟩
        rw [hde]
        apply List.mem_append_left
        rw [danglingDiags]
        refine List.mem_filterMap.mpr ⟨ev, hev, ?_⟩
        simp [hfe, hnse]
  · rw [hde, hmap]
  · intro k es hk hfs
    rw [hde]
    apply List.mem_append_right
    rw [hmap] at hk
    refine List.mem_map.mpr ⟨(k, es), ?_, rfl⟩
    rw [List.mem_filter]
    exact ⟨hk, by simp [hfs]⟩
  · rw [hde]

/-- Witness for C3 on `c3Env`: `evBad` (reference without a name) yields the
dangling diagnostic, and the run writes exactly the event logs of groups
whose `raw.json` exists, returning `Ok`. -/
theorem event_correlator_behavior_witness :
    ("Skipping dangling event ".toList ++ "default".toList ++ "/".toList
      ++ "e2".toList) ∈ (dump_events c3Env).1 ∧
    (dump_events c3Env).2.1 =
      ((event_mapping [evGood, evBad]).filter
          (fun g => c3Env.fs_exists (eventReprPath c3Env g.1))).map
        (fun g => (eventLogPath c3Env g.1,
          joinNewline (g.2.map event_to_string))) ∧
    (dump_events c3Env).2.2 = Except.ok () := by
  have h := event_correlator_behavior c3Env [evGood, evBad] rfl (by decide)
    (fun p s => rfl)
  refine ⟨?_, h.2.2.1, h.2.2.2.2⟩
  obtain ⟨ns, hns, hmem⟩ := (h.2.1 evBad (by decide) (Or.inl rfl)).2
  have hnseq : "default".toList = ns := Option.some.inj hns
  rw [← hnseq] at hmem
  exact hmem
